import Mathlib

/-!
The file `save.go` of wgo: vendoring-tool probe, package resolution, save and promote.

A shallow embedding of `src/save.go`.  Go strings are lists of characters,
Go maps are association lists with unique keys, and everything the program
obtains from outside (subprocess output, `build.Import`, the file system,
the order in which a `range` visits a map) is an explicit parameter.
-/

namespace Wgo

/-- A Go string, as its sequence of characters. -/
abbrev Str := List Char

/-! ## Library functions used by `save.go` (Go standard library, Unix flavour) -/

/-- Go `strings.HasPrefix`. -/
def hasPrefix (s p : Str) : Bool := p.isPrefixOf s

/-- Go `strings.Split(s, sep)` for a one-character separator: the pieces between
consecutive separators, always at least one piece. -/
def splitOn (sep : Char) : Str → List Str
  | [] => [[]]
  | c :: cs =>
    if c = sep then [] :: splitOn sep cs
    else
      match splitOn sep cs with
      | [] => [[c]]
      | h :: t => (c :: h) :: t

/-- Go `unicode.IsSpace`. -/
def isSpace (c : Char) : Bool :=
  let n := c.toNat
  n = 0x09 || n = 0x0A || n = 0x0B || n = 0x0C || n = 0x0D || n = 0x20 ||
  n = 0x85 || n = 0xA0 || n = 0x1680 || (0x2000 ≤ n && n ≤ 0x200A) ||
  n = 0x2028 || n = 0x2029 || n = 0x202F || n = 0x205F || n = 0x3000

/-- Go `strings.TrimSpace`: drop leading and trailing white space. -/
def trimSpace (s : Str) : Str :=
  ((s.dropWhile isSpace).reverse.dropWhile isSpace).reverse

/-- The value of a decimal digit character, if it is one. -/
def digitVal (c : Char) : Option Nat :=
  if 48 ≤ c.toNat ∧ c.toNat ≤ 57 then some (c.toNat - 48) else none

/-- Value of a string of decimal digits; `none` when a character is not a digit. -/
def parseDigits : Str → Nat → Option Nat
  | [], acc => some acc
  | c :: cs, acc =>
    match digitVal c with
    | some d => parseDigits cs (acc * 10 + d)
    | none => none

/-- The width of Go `int` on the platform (64-bit). -/
def intSize : Nat := 64

/-- Go `strconv.Atoi`: an optional sign, then one or more decimal digits, and the
value has to fit in `int`; `none` stands for a non-nil error (syntax or range). -/
def atoi (s : Str) : Option Int :=
  let neg : Bool := match s with
    | '-' :: _ => true
    | _ => false
  let body : Str := match s with
    | '-' :: r => r
    | '+' :: r => r
    | _ => s
  match body with
  | [] => none
  | _ :: _ =>
    match parseDigits body 0 with
    | none => none
    | some n =>
      if neg then
        if n ≤ 2 ^ (intSize - 1) then some (-(n : Int)) else none
      else
        if n < 2 ^ (intSize - 1) then some (n : Int) else none

/-- Go `strings.Join(elems, "/")`. -/
def joinSlash : List Str → Str
  | [] => []
  | [e] => e
  | e :: es => e ++ '/' :: joinSlash es

/-- Go `filepath.IsAbs` on Unix. -/
def isAbs (path : Str) : Bool := hasPrefix path ['/']

/-- One element of the path in `filepath.Clean`; `stack` holds the elements kept so
far, the last one first.  Empty and `.` elements are skipped, `..` removes the
last real element (or is kept at the front of a path that is not rooted), any other
element is appended. -/
def cleanStep (rooted : Bool) (stack : List Str) (e : Str) : List Str :=
  if e = [] ∨ e = ['.'] then stack
  else if e = ['.', '.'] then
    match stack with
    | [] => if rooted then [] else [e]
    | top :: rest => if !rooted && top = ['.', '.'] then e :: stack else rest
  else e :: stack

/-- Go `filepath.Clean` on Unix, element by element. -/
def clean (path : Str) : Str :=
  let rooted := hasPrefix path ['/']
  let elems := ((splitOn '/' path).foldl (cleanStep rooted) []).reverse
  if rooted then '/' :: joinSlash elems
  else if elems = [] then ['.']
  else joinSlash elems

/-- Go `filepath.Join` on Unix: leading empty elements are ignored, the rest is
joined with `/` and cleaned; the result is empty when every element is. -/
def filepathJoin (elem : List Str) : Str :=
  match elem.dropWhile (fun e => e.isEmpty) with
  | [] => []
  | e :: es => clean (joinSlash (e :: es))

/-- The element-matching loop of Go `filepath.Rel`, on the parts of `base` and `targ`
not yet compared (`base[b0:]`, `targ[t0:]`).  Returns `base[b0:bi]`, `base[b0:]` and
`targ[t0:]` as they are when the loop stops. -/
def relLoop : Nat → Str → Str → Str × Str × Str
  | 0, b, t => ([], b, t)
  | n + 1, b, t =>
    if b = [] ∨ t = [] then ([], b, t)
    else
      let be := b.takeWhile (fun c => c ≠ '/')
      let te := t.takeWhile (fun c => c ≠ '/')
      if te ≠ be then (be, b, t)
      else relLoop n (b.drop (be.length + 1)) (t.drop (te.length + 1))

/-- Go `filepath.Rel` on Unix; `none` stands for a non-nil error. -/
def filepathRel (basepath targpath : Str) : Option Str :=
  let base := clean basepath
  let targ := clean targpath
  if targ = base then some ['.']
  else
    let base := if base = ['.'] then [] else base
    if hasPrefix base ['/'] ≠ hasPrefix targ ['/'] then none
    else
      match relLoop (base.length + 1) base targ with
      | (be, bRest, tRest) =>
        if be = ['.', '.'] then none
        else if bRest ≠ [] then
          some (['.', '.'] ++ (List.replicate (bRest.count '/') ['/', '.', '.']).flatten ++
            (if tRest ≠ [] then '/' :: tRest else []))
        else some tRest

/-! ## `ensureVendor` -/

deriving instance DecidableEq for Except

/-- How a run of the program can stop early. -/
inductive Failure where
  /-- Printed the lines to stderr, then `os.Exit(code)`. -/
  | exit (stderr : List String) (code : Nat)
  /-- A run-time panic: index out of range. -/
  | indexOutOfRange
  /-- A subprocess failed and `orExit` stopped the program. -/
  | commandFailed
  deriving DecidableEq, Repr

/-- The two lines printed when `vendor` is not installed. -/
def vendorMissing : Failure :=
  .exit ["The save/restore functionality uses 'vendor'.",
         "To install vendor, 'go get github.com/skelterjohn/vendor'."] 1

/-- The two lines printed when `vendor` is too old. -/
def vendorOutOfDate : Failure :=
  .exit ["Your copy of vendor is out of date.",
         "To update vendor, 'go get -u github.com/skelterjohn/vendor'."] 1

/-- The second half of `ensureVendor` (lines 42-53): the check of the stdout of
`vendor -v`. -/
def versionCheck (out : Str) : Except Failure Unit :=
  if !hasPrefix out "vendor build ".toList then .error vendorOutOfDate
  else
    let tokens := splitOn ' ' out
    match tokens.get? 2 with
    | none => .error .indexOutOfRange
    | some tok =>
      let numToken := trimSpace tok
      match atoi numToken with
      | none => .error vendorOutOfDate
      | some buildNum => if buildNum < 3 then .error vendorOutOfDate else .ok ()

/-- `ensureVendor`: `usage` is what `vendor` writes to stderr, `version` what
`vendor -v` writes to stdout. -/
def ensureVendor (usage version : Str) : Except Failure Unit :=
  if !hasPrefix usage "Usage: vendor".toList then .error vendorMissing
  else versionCheck version


/-! ## Go maps -/

/-- A Go `map[string]string`: its entries, each key once. -/
abbrev GoMap := List (Str × Str)

/-- The map assignment `m[k] = v`: replaces the value under an existing key, adds a
new entry otherwise. -/
def mapSet : GoMap → Str → Str → GoMap
  | [], k, v => [(k, v)]
  | (k', v') :: m, k, v => if k' = k then (k, v) :: m else (k', v') :: mapSet m k v

/-- The map lookup `m[k]`, `none` when the key is absent. -/
def mapGet (m : GoMap) (k : Str) : Option Str :=
  (m.find? (fun e => e.1 = k)).map Prod.snd

/-! ## The workspace and the outside world -/

/-- The fields of `workspace` that `save.go` reads. -/
structure workspace where
  /-- The workspace root directory. -/
  root : Str
  /-- The gopaths of the workspace, in order. -/
  gopaths : List Str
  deriving DecidableEq

/-- One record returned by `w.importGodeps()`. -/
structure godep where
  /-- Import path root. -/
  root : Str
  /-- Repository. -/
  repo : Str
  /-- Revision. -/
  rev : Str
  /-- Version-control kind. -/
  kind : Str
  deriving DecidableEq

/-- Everything `save.go` obtains from outside the file: subprocess output, standard
library state and the workspace methods defined elsewhere. -/
structure World where
  /-- What `vendor` writes to stderr. -/
  vendorStderr : Str
  /-- What `vendor -v` writes to stdout. -/
  vendorVersionStdout : Str
  /-- Standard output of `go args...` run in `w.root`; `none` when the command
  fails (then `orExit` stops the program). -/
  goList : List Str → Option Str
  /-- The `Dir` of `build.Import(pkg, w.root, build.FindOnly)`; `none` on error. -/
  buildImport : Str → Option Str
  /-- The value of `runtime.GOROOT()`. -/
  goroot : Str
  /-- The value of `w.vendorRootSrc()`. -/
  vendorRootSrc : Str
  /-- The value of `w.importGodeps()`. -/
  importGodeps : List godep
  /-- The value of `filepath.ListSeparator`. -/
  listSeparator : Char
  /-- The order in which a `range` loop visits the entries of a map. -/
  rangeOrder : GoMap → GoMap

/-- The test `x, err := filepath.Rel(root, dir); err == nil && !strings.HasPrefix(x, "..")`
used at lines 97, 107, 138 and 183. -/
def relWithin (root dir : Str) : Bool :=
  match filepathRel root dir with
  | some x => !hasPrefix x ['.', '.']
  | none => false

/-! ## `getOutsidePackages` -/

/-- The template of the test-imports listing (line 64). -/
def testImportsFormat : Str := "\x7b\x7brange .TestImports\x7d\x7d\x7b\x7b.\x7d\x7d\n\x7b\x7bend\x7d\x7d".toList

/-- The template of the dependency listing (line 76). -/
def depsFormat : Str :=
  "\x7b\x7b.ImportPath\x7d\x7d\n\x7b\x7brange .Deps\x7d\x7d\x7b\x7b.\x7d\x7d\n\x7b\x7bend\x7d\x7d".toList

/-- Lines 59-62: one `./<gopath>/src/...` target is appended per gopath. -/
def withSourceTrees (w : workspace) (targets : List Str) : List Str :=
  w.gopaths.foldl (fun ts gopath => ts ++ ["./".toList ++ gopath ++ "/src/...".toList]) targets

/-- Line 64-65: the arguments of the first `go list`. -/
def goListTestArgs (targets : List Str) : List Str :=
  ["list".toList, "-e".toList, "-f".toList, testImportsFormat] ++ targets

/-- Lines 72-74: every piece of the test-imports output is appended to the targets. -/
def withTestImports (testBuf : Str) (targets : List Str) : List Str :=
  (splitOn '\n' testBuf).foldl (fun ts pkg => ts ++ [pkg]) targets

/-- Line 76-77: the arguments of the second `go list`. -/
def goListArgs (targets : List Str) : List Str :=
  ["list".toList, "-e".toList, "-f".toList, depsFormat] ++ targets

/-- Lines 59-74: the target list handed to the second `go list`. -/
def secondTargets (W : World) (w : workspace) (targets : List Str) :
    Except Failure (List Str) :=
  let targets := withSourceTrees w targets
  match W.goList (goListTestArgs targets) with
  | none => .error .commandFailed
  | some testBuf => .ok (withTestImports testBuf targets)

/-- The body of the loop at lines 89-101. -/
def resolveStep (W : World) (pkgs : GoMap) (pkg : Str) : GoMap :=
  if pkg = [] then pkgs
  else
    match W.buildImport pkg with
    | none => pkgs
    | some dir => if relWithin W.goroot dir then pkgs else mapSet pkgs pkg dir

/-- The body of the loop at lines 103-111. -/
def reassignStep (w : workspace) (pkgs : GoMap) (e : Str × Str) : GoMap :=
  if !isAbs e.2 then pkgs
  else if relWithin w.root e.2 then pkgs
  else mapSet pkgs e.1 e.2

/-- `workspace.getOutsidePackages`. -/
def getOutsidePackages (W : World) (w : workspace) (targets : List Str) :
    Except Failure GoMap :=
  match secondTargets W w targets with
  | .error f => .error f
  | .ok targets =>
    match W.goList (goListArgs targets) with
    | none => .error .commandFailed
    | some buf =>
      let pkgs := (splitOn '\n' buf).foldl (resolveStep W) []
      .ok ((W.rangeOrder pkgs).foldl (reassignStep w) pkgs)

/-! ## `save` -/

/-- Lines 119-127: the targets among `args`, and whether `--godeps` was given. -/
def splitSaveArgs (args : List Str) : List Str × Bool :=
  args.foldl (fun st t => if t = "--godeps".toList then (st.1, true) else (st.1 ++ [t], st.2))
    ([], false)

/-- The body of the loop at lines 132-142. -/
def addonStep (W : World) (w : workspace) (addonMapping : GoMap) (e : Str × Str) : GoMap :=
  let destination := filepathJoin [W.vendorRootSrc, e.1]
  if !isAbs e.2 then addonMapping
  else if relWithin w.root e.2 then addonMapping
  else mapSet addonMapping destination e.2

/-- Lines 131-142: the destination mapping built from the packages in the order
the loop visits them. -/
def addonMapping (W : World) (w : workspace) (pkgs : List (Str × Str)) : GoMap :=
  pkgs.foldl (addonStep W w) []

/-- Lines 144-147: two arguments per entry of the destination mapping. -/
def addonArgs (entries : List (Str × Str)) : List Str :=
  entries.foldl (fun as e => as ++ ["-a".toList, e.1 ++ "=".toList ++ e.2]) []

/-- Lines 149-154: two arguments per legacy record, when `--godeps` was given. -/
def godepsArgs (godeps : Bool) (deps : List godep) (addonArgs : List Str) : List Str :=
  if godeps then
    deps.foldl (fun as dd =>
      as ++ ["-r".toList ++ dd.kind, dd.root ++ "=".toList ++ dd.repo ++ "@".toList ++ dd.rev])
      addonArgs
  else addonArgs

/-- Lines 156-161: the directories `vendor` is told to ignore. -/
def ignoreDirs (w : workspace) : List Str :=
  w.gopaths.foldl (fun ds gopath =>
    ds ++ [filepathJoin [gopath, "pkg".toList], filepathJoin [gopath, "bin".toList]])
    [".git".toList, ".hg".toList, ".gocfg".toList]

/-- Go `strings.Join(elems, sep)` for a one-character separator. -/
def joinWith (sep : Char) : List Str → Str
  | [] => []
  | [e] => e
  | e :: es => e ++ sep :: joinWith sep es

/-- What `save` hands over: the argument list of `w.shellOutToVendor` and the value
it stored in `VENDOR_IGNORE_DIRS`. -/
structure VendorCall where
  /-- Arguments given to `w.shellOutToVendor`. -/
  args : List Str
  /-- Value of the environment variable `VENDOR_IGNORE_DIRS`. -/
  ignoreDirsStr : Str
  deriving DecidableEq

/-- The function `save`. -/
def save (W : World) (w : workspace) (args : List Str) : Except Failure VendorCall :=
  match ensureVendor W.vendorStderr W.vendorVersionStdout with
  | .error f => .error f
  | .ok () =>
    let targets := (splitSaveArgs args).1
    let godeps := (splitSaveArgs args).2
    match getOutsidePackages W w targets with
    | .error f => .error f
    | .ok pkgs =>
      let mapping := addonMapping W w (W.rangeOrder pkgs)
      let args := godepsArgs godeps W.importGodeps (addonArgs (W.rangeOrder mapping))
      .ok { args := ["wgo".toList, "vendor".toList, "-x".toList, "-s".toList] ++ args,
            ignoreDirsStr := joinWith W.listSeparator (ignoreDirs w) }

/-! ## `vendor` (promote into the workspace) -/

/-- The file-system operations `vendor` uses, over a state `σ`: `stat s p` tells
whether `os.Stat(p)` succeeds in `s`, `copyDir src dst s` is the state after
`copyDir(src, dst)`. -/
structure FileSystem (σ : Type) where
  /-- Whether `os.Stat(path)` returns a nil error. -/
  stat : σ → Str → Bool
  /-- The state after `copyDir(src, dst)`. -/
  copyDir : Str → Str → σ → σ

/-- The observable course of a run of the loop in `vendor`. -/
structure PromoteRun (σ : Type) where
  /-- The file-system state. -/
  fs : σ
  /-- The lines printed so far. -/
  printed : List Str
  /-- The copies made so far, as (source, destination). -/
  copied : List (Str × Str)

/-- Lines 172-175. -/
def firstGopath (w : workspace) : Str :=
  match w.gopaths with
  | [] => ['.']
  | g :: _ => g

/-- The body of the loop at lines 177-191. -/
def vendorStep {σ : Type} (F : FileSystem σ) (w : workspace) (run : PromoteRun σ)
    (e : Str × Str) : PromoteRun σ :=
  let destination := filepathJoin [firstGopath w, "src".toList, e.1]
  if !isAbs e.2 then run
  else if relWithin w.root e.2 then run
  else if F.stat run.fs destination then run
  else { fs := F.copyDir e.2 destination run.fs,
         printed := run.printed ++ [e.1],
         copied := run.copied ++ [(e.2, destination)] }

/-- Lines 177-191: the loop over the packages, in the order it visits them. -/
def vendorLoop {σ : Type} (F : FileSystem σ) (w : workspace) (s : σ)
    (pkgs : List (Str × Str)) : PromoteRun σ :=
  pkgs.foldl (vendorStep F w) { fs := s, printed := [], copied := [] }

/-- The function `vendor`. -/
def vendor {σ : Type} (W : World) (F : FileSystem σ) (w : workspace) (targets : List Str)
    (s : σ) : Except Failure (PromoteRun σ) :=
  match getOutsidePackages W w targets with
  | .error f => .error f
  | .ok pkgs => .ok (vendorLoop F w s (W.rangeOrder pkgs))

/-- The function `restore`. -/
def restore (W : World) : Except Failure (List Str) :=
  match ensureVendor W.vendorStderr W.vendorVersionStdout with
  | .error f => .error f
  | .ok () => .ok ["wgo".toList, "vendor".toList, "-r".toList]

/-! ## The claim about the version check, in the words of the specification -/

/-- The white-space separated tokens of a text: maximal runs of characters that are
not white space.  `cur` is the token being read, last character first. -/
def fieldsAux : Str → Str → List Str
  | [], cur => if cur = [] then [] else [cur.reverse]
  | c :: cs, cur =>
    if isSpace c then
      (if cur = [] then fieldsAux cs [] else cur.reverse :: fieldsAux cs [])
    else fieldsAux cs (c :: cur)

/-- The third white-space separated token of a text. -/
def thirdWhitespaceToken (out : Str) : Option Str := (fieldsAux out []).get? 2

/-- The version check as the specification words it: the third white-space separated
token parses as an integer that is at least 3. -/
def specVersionOk (out : Str) : Bool :=
  match thirdWhitespaceToken out with
  | none => false
  | some tok =>
    match atoi tok with
    | none => false
    | some n => decide (3 ≤ n)

/-! ## Claims about paths, in the words of the specification -/

/-- In the words of the specification: the directory `dir` is `root` itself or a path
below it, both taken in cleaned form. -/
def isInside (root dir : Str) : Bool :=
  let r := clean root
  let d := clean dir
  decide (d = r) || (if r = ['/'] then hasPrefix d ['/'] else hasPrefix d (r ++ ['/']))

/-- An element that `filepath.Clean` keeps as it is: not empty, not `.` and not `..`. -/
def plainElem (e : Str) : Prop := e ≠ [] ∧ e ≠ ['.'] ∧ e ≠ ['.', '.']

instance : DecidablePred plainElem := fun e => by unfold plainElem; infer_instance

/-- The relation between `base`, `targ` and the rest `tr` of `targ` that the loop of
`filepath.Rel` leaves when it has consumed all of `base`. -/
def RelDone (b t tr : Str) : Prop :=
  (b = [] ∧ tr = t) ∨ (t = b ∧ tr = []) ∨ (t = b ++ '/' :: tr) ∨
    (∃ q, b = q ++ ['/'] ∧ t = b ++ tr) ∨ (tr = [] ∧ b = t ++ ['/'])

/-- The ignore list as the specification words it: the three fixed names, then
`<gopath>/pkg` and `<gopath>/bin` for each gopath. -/
def specIgnoreDirs (gopaths : List Str) : List Str :=
  [".git".toList, ".hg".toList, ".gocfg".toList] ++
    gopaths.flatMap (fun g => [g ++ "/pkg".toList, g ++ "/bin".toList])

/-- The pair of arguments that carries one entry of the destination mapping. -/
def addonPair (e : Str × Str) : List Str := ["-a".toList, e.1 ++ "=".toList ++ e.2]

/-- The pair of arguments that carries one legacy dependency record. -/
def godepPair (dd : godep) : List Str :=
  ["-r".toList ++ dd.kind, dd.root ++ "=".toList ++ dd.repo ++ "@".toList ++ dd.rev]

/-- Replaying a list of copies from a state: `none` as soon as a copy has a
destination that already exists, the final state otherwise. -/
def replayFresh {σ : Type} (F : FileSystem σ) : σ → List (Str × Str) → Option σ
  | s, [] => some s
  | s, c :: cs => if F.stat s c.2 then none else replayFresh F (F.copyDir c.1 c.2 s) cs

/-- A file system whose state is the list of existing paths; copying a directory
adds its destination. -/
def pathSetFS : FileSystem (List Str) where
  stat := fun s p => decide (p ∈ s)
  copyDir := fun _ dst s => dst :: s

/-! ## The scenario of the specification -/

/-- The workspace of the scenario: root `/ws`, gopaths `go`. -/
def scenarioWorkspace : workspace := { root := "/ws".toList, gopaths := ["go".toList] }

/-- A world for the scenario: the listing reports the packages `example.com/app` (in the
workspace), `example.com/dep` (outside it) and `fmt` (in GOROOT). -/
def scenarioWorld : World where
  vendorStderr := "Usage: vendor [flags]\n".toList
  vendorVersionStdout := "vendor build 3\n".toList
  goList := fun args =>
    if args.get? 3 = some testImportsFormat then some "testing\n".toList
    else some "example.com/app\nexample.com/dep\nfmt\ntesting\n".toList
  buildImport := fun pkg =>
    if pkg = "example.com/app".toList then some "/ws/go/src/example.com/app".toList
    else if pkg = "example.com/dep".toList then
      some "/home/user/gocode/src/example.com/dep".toList
    else if pkg = "fmt".toList then some "/usr/local/go/src/fmt".toList
    else if pkg = "testing".toList then some "/usr/local/go/src/testing".toList
    else none
  goroot := "/usr/local/go".toList
  vendorRootSrc := "/ws/vendor/src".toList
  importGodeps :=
    [{ root := "github.com/a/b".toList, repo := "https://github.com/a/b".toList,
       rev := "1f2e3d".toList, kind := "git".toList }]
  listSeparator := ':'
  rangeOrder := List.reverse

/-! ## Inputs with a directory whose name begins with two dots -/

/-- A workspace that lies in the directory `..ws` of GOROOT. -/
def dotdotWorkspace : workspace :=
  { root := "/usr/local/go/..ws".toList, gopaths := ["go".toList] }

/-- A world for `dotdotWorkspace`: GOROOT is `/usr/local/go`, the listing reports the
package `foo` of the workspace, found in the gopath of the workspace. -/
def dotdotWorld : World where
  vendorStderr := "Usage: vendor [flags]\n".toList
  vendorVersionStdout := "vendor build 3\n".toList
  goList := fun args =>
    if args.get? 3 = some testImportsFormat then some [] else some "foo\n".toList
  buildImport := fun pkg =>
    if pkg = "foo".toList then some "/usr/local/go/..ws/go/src/foo".toList else none
  goroot := "/usr/local/go".toList
  vendorRootSrc := "/usr/local/go/..ws/vendor/src".toList
  importGodeps := []
  listSeparator := ':'
  rangeOrder := fun m => m

/-- A workspace with root `/ws` whose gopath is the directory `..deps`. -/
def dotdotDepsWorkspace : workspace := { root := "/ws".toList, gopaths := ["..deps".toList] }

/-! ## Lemmas on splitting -/

theorem splitOn_ne_nil (sep : Char) (s : Str) : splitOn sep s ≠ [] := by
  cases s with
  | nil => simp [splitOn]
  | cons c cs =>
    unfold splitOn
    split
    · simp
    · split <;> simp

theorem splitOn_cons_sep (sep : Char) (cs : Str) :
    splitOn sep (sep :: cs) = [] :: splitOn sep cs := by
  simp [splitOn]

theorem splitOn_cons_ne {sep c : Char} (h : c ≠ sep) (cs : Str) :
    ∃ t, splitOn sep cs = (cs.takeWhile (fun x => x ≠ sep)) :: t ∧
      splitOn sep (c :: cs) = (c :: cs.takeWhile (fun x => x ≠ sep)) :: t := by
  induction cs generalizing c with
  | nil => exact ⟨[], by simp [splitOn], by simp [splitOn, h]⟩
  | cons d ds ih =>
    by_cases hd : d = sep
    · subst hd
      refine ⟨splitOn d ds, by simp [splitOn], ?_⟩
      simp [splitOn, h]
    · obtain ⟨t, h1, h2⟩ := ih hd
      refine ⟨t, ?_, ?_⟩
      · rw [h2]; simp [hd]
      · rw [splitOn, if_neg h, h2]; simp [hd]

theorem splitOn_head (sep : Char) (s : Str) :
    ∃ t, splitOn sep s = (s.takeWhile (fun x => x ≠ sep)) :: t := by
  cases s with
  | nil => exact ⟨[], by simp [splitOn]⟩
  | cons c cs =>
    by_cases hc : c = sep
    · subst hc; exact ⟨splitOn c cs, by simp [splitOn]⟩
    · obtain ⟨t, _, h2⟩ := splitOn_cons_ne hc cs
      exact ⟨t, by rw [h2]; simp [hc]⟩

/-- Splitting a text that begins with `vendor build `: the third piece is the text
after that banner up to the next space. -/
theorem splitOn_vendor_build (rest : Str) :
    ∃ t, splitOn ' ' ("vendor build ".toList ++ rest) =
      "vendor".toList :: "build".toList :: (rest.takeWhile (fun x => x ≠ ' ')) :: t := by
  obtain ⟨t, ht⟩ := splitOn_head ' ' rest
  refine ⟨t, ?_⟩
  show splitOn ' ' ('v' :: 'e' :: 'n' :: 'd' :: 'o' :: 'r' :: ' ' :: 'b' :: 'u' :: 'i' :: 'l' ::
    'd' :: ' ' :: rest) = _
  have step : ∀ (c : Char) (cs : Str) (h : Str) (t : List Str), c ≠ ' ' →
      splitOn ' ' cs = h :: t → splitOn ' ' (c :: cs) = (c :: h) :: t := by
    intro c cs h t hc hs
    rw [splitOn, if_neg hc, hs]
  have e1 : splitOn ' ' (' ' :: rest) = [] :: (rest.takeWhile (fun x => x ≠ ' ')) :: t := by
    rw [splitOn_cons_sep, ht]
  have e2 := step 'd' _ _ _ (by decide) e1
  have e3 := step 'l' _ _ _ (by decide) e2
  have e4 := step 'i' _ _ _ (by decide) e3
  have e5 := step 'u' _ _ _ (by decide) e4
  have e6 := step 'b' _ _ _ (by decide) e5
  have e7 : splitOn ' ' (' ' :: 'b' :: 'u' :: 'i' :: 'l' :: 'd' :: ' ' :: rest) =
      [] :: "build".toList :: (rest.takeWhile (fun x => x ≠ ' ')) :: t := by
    rw [splitOn_cons_sep, e6]; rfl
  have e8 := step 'r' _ _ _ (by decide) e7
  have e9 := step 'o' _ _ _ (by decide) e8
  have e10 := step 'd' _ _ _ (by decide) e9
  have e11 := step 'n' _ _ _ (by decide) e10
  have e12 := step 'e' _ _ _ (by decide) e11
  have e13 := step 'v' _ _ _ (by decide) e12
  rw [e13]; rfl

theorem hasPrefix_iff (s p : Str) : hasPrefix s p = true ↔ ∃ rest, s = p ++ rest := by
  unfold hasPrefix
  rw [List.isPrefixOf_iff_prefix]
  constructor
  · rintro ⟨t, rfl⟩; exact ⟨t, rfl⟩
  · rintro ⟨t, rfl⟩; exact ⟨t, rfl⟩

/-- The value of the version check in terms of the text after the banner. -/
theorem versionCheck_banner (rest : Str) :
    versionCheck ("vendor build ".toList ++ rest) =
      match atoi (trimSpace (rest.takeWhile (fun x => x ≠ ' '))) with
      | none => .error vendorOutOfDate
      | some n => if n < 3 then .error vendorOutOfDate else .ok () := by
  obtain ⟨t, ht⟩ := splitOn_vendor_build rest
  have hp : hasPrefix ("vendor build ".toList ++ rest) "vendor build ".toList = true :=
    (hasPrefix_iff _ _).2 ⟨rest, rfl⟩
  unfold versionCheck
  rw [hp, ht]
  simp

theorem takeWhile_token (tok rest : Str) (h1 : ' ' ∉ tok)
    (h2 : rest = [] ∨ ∃ r, rest = ' ' :: r) :
    (tok ++ rest).takeWhile (fun x => x ≠ ' ') = tok := by
  induction tok with
  | nil =>
    rcases h2 with rfl | ⟨r, rfl⟩ <;> simp
  | cons c cs ih =>
    have hc : c ≠ ' ' := fun h => h1 (by simp [h])
    have hcs : ' ' ∉ cs := fun h => h1 (by simp [h])
    have ih2 := ih hcs
    simp only [decide_not] at ih2
    simp [hc, ih2]


/-! ## The version check -/

theorem ensureVendor_usage_ok (usage out : Str)
    (hu : hasPrefix usage "Usage: vendor".toList = true) :
    ensureVendor usage out = versionCheck out := by
  unfold ensureVendor
  rw [hu]; rfl

/-- C10: `ensureVendor` never fails with an index out of range, because a text that
begins with `vendor build ` splits on the space character into at least three tokens,
so the token at index 2 exists whenever it is read. -/
theorem ensureVendor_token_index_defined (usage out : Str) :
    ensureVendor usage out ≠ .error .indexOutOfRange ∧
    (hasPrefix out "vendor build ".toList = true →
      3 ≤ (splitOn ' ' out).length ∧ ∃ tok, (splitOn ' ' out).get? 2 = some tok) := by
  have key : hasPrefix out "vendor build ".toList = true →
      3 ≤ (splitOn ' ' out).length ∧ ∃ tok, (splitOn ' ' out).get? 2 = some tok := by
    intro h
    obtain ⟨rest, rfl⟩ := (hasPrefix_iff _ _).1 h
    obtain ⟨t, ht⟩ := splitOn_vendor_build rest
    rw [ht]
    exact ⟨by simp, _, rfl⟩
  refine ⟨?_, key⟩
  unfold ensureVendor
  split
  · simp [vendorMissing]
  · unfold versionCheck
    split
    · simp [vendorOutOfDate]
    · rename_i hp
      have hp2 : hasPrefix out "vendor build ".toList = true := by simpa using hp
      obtain ⟨_, tok, htok⟩ := key hp2
      simp only [htok]
      split
      · simp [vendorOutOfDate]
      · split <;> simp [vendorOutOfDate]

/-- Witness for C10 at the text `vendor build 3` followed by a newline. -/
theorem ensureVendor_token_index_defined_witness :
    3 ≤ (splitOn ' ' "vendor build 3\n".toList).length ∧
      ∃ tok, (splitOn ' ' "vendor build 3\n".toList).get? 2 = some tok :=
  (ensureVendor_token_index_defined "Usage: vendor".toList "vendor build 3\n".toList).2
    (by decide)

/-- C1 (counterexample): on `vendor build  3` (two spaces) the third white-space
separated token is `3`, which parses as an integer at least 3, yet the check of
`ensureVendor` stops the program with the out-of-date message. -/
theorem versionCheck_whitespace_counterexample :
    hasPrefix "vendor build  3".toList "vendor build ".toList = true ∧
    thirdWhitespaceToken "vendor build  3".toList = some "3".toList ∧
    specVersionOk "vendor build  3".toList = true ∧
    ensureVendor "Usage: vendor".toList "vendor build  3".toList = .error vendorOutOfDate := by
  decide

/-- C1 (amended): for a text that begins with `vendor build `, the version check of
`ensureVendor` passes exactly when the text is the banner, then a token without a space
that ends at the next space or at the end of the text, and that token, with surrounding
white space trimmed, parses as an integer that is at least 3; a check that does not pass
exits with the out-of-date message.  `vendor build 3 ...` passes, `vendor build 2 ...`
and `vendor build foo ...` fail with the out-of-date message. -/
theorem ensureVendor_version_passes_iff (usage out : Str)
    (hu : hasPrefix usage "Usage: vendor".toList = true)
    (h : hasPrefix out "vendor build ".toList = true) :
    (ensureVendor usage out = .ok () ↔
      ∃ tok rest n, out = "vendor build ".toList ++ tok ++ rest ∧ ' ' ∉ tok ∧
        (rest = [] ∨ ∃ r, rest = ' ' :: r) ∧ atoi (trimSpace tok) = some n ∧ 3 ≤ n) ∧
    (ensureVendor usage out ≠ .ok () → ensureVendor usage out = .error vendorOutOfDate) ∧
    (∀ more, ensureVendor usage ("vendor build 3 ".toList ++ more) = .ok ()) ∧
    (∀ more, ensureVendor usage ("vendor build 2 ".toList ++ more) = .error vendorOutOfDate) ∧
    (∀ more, ensureVendor usage ("vendor build foo ".toList ++ more) =
      .error vendorOutOfDate) := by
  simp only [ensureVendor_usage_ok usage _ hu]
  obtain ⟨rest, rfl⟩ := (hasPrefix_iff _ _).1 h
  refine ⟨?_, ?_, ?_, ?_, ?_⟩
  · rw [versionCheck_banner]
    constructor
    · intro hok
      refine ⟨rest.takeWhile (fun x => x ≠ ' '), rest.dropWhile (fun x => x ≠ ' '), ?_⟩
      cases hat : atoi (trimSpace (rest.takeWhile (fun x => x ≠ ' '))) with
      | none => rw [hat] at hok; simp at hok
      | some n =>
        rw [hat] at hok
        refine ⟨n, ?_, ?_, ?_, rfl, ?_⟩
        · rw [List.append_assoc, List.takeWhile_append_dropWhile]
        · intro hmem
          have := List.mem_takeWhile_imp hmem
          simp at this
        · cases hd : rest.dropWhile (fun x => x ≠ ' ') with
          | nil => exact Or.inl rfl
          | cons c cs =>
            right
            have := List.head_dropWhile_not (fun x => decide (x ≠ ' ')) rest
              (by rw [hd]; simp)
            simp only [hd, List.head_cons] at this
            have hc : c = ' ' := by simpa using this
            exact ⟨cs, by rw [hc]⟩
        · by_contra hlt
          have : n < 3 := by omega
          simp [this] at hok
    · rintro ⟨tok, rest2, n, heq, hns, hrest, hat, hn⟩
      rw [List.append_assoc] at heq
      have hr : rest = tok ++ rest2 := List.append_cancel_left heq
      rw [hr, takeWhile_token tok rest2 hns hrest, hat]
      have : ¬ n < 3 := by omega
      simp [this]
  · rw [versionCheck_banner]
    intro hne
    cases hat : atoi (trimSpace (rest.takeWhile (fun x => x ≠ ' '))) with
    | none => rfl
    | some n =>
      rw [hat] at hne
      by_cases hn : n < 3
      · simp [hn]
      · simp [hn] at hne
  · intro more
    show versionCheck ("vendor build ".toList ++ ('3' :: ' ' :: more)) = _
    rw [versionCheck_banner]
    have : ('3' :: ' ' :: more).takeWhile (fun x => x ≠ ' ') = ['3'] := by simp
    rw [this]
    rfl
  · intro more
    show versionCheck ("vendor build ".toList ++ ('2' :: ' ' :: more)) = _
    rw [versionCheck_banner]
    have : ('2' :: ' ' :: more).takeWhile (fun x => x ≠ ' ') = ['2'] := by simp
    rw [this]
    rfl
  · intro more
    show versionCheck ("vendor build ".toList ++ ('f' :: 'o' :: 'o' :: ' ' :: more)) = _
    rw [versionCheck_banner]
    have : ('f' :: 'o' :: 'o' :: ' ' :: more).takeWhile (fun x => x ≠ ' ') =
        ['f', 'o', 'o'] := by simp
    rw [this]
    rfl

/-- Witness for C1 (amended) at the text `vendor build 12` followed by a newline. -/
theorem ensureVendor_version_passes_iff_witness :
    ensureVendor "Usage: vendor [flags]".toList "vendor build 12\n".toList = .ok () :=
  (ensureVendor_version_passes_iff "Usage: vendor [flags]".toList "vendor build 12\n".toList
    (by decide) (by decide)).1.2
    ⟨"12\n".toList, [], 12, by decide, by decide, Or.inl rfl, by decide, by decide⟩

/-! ## Loops as folds -/

theorem foldl_invariant {α β : Type} (f : β → α → β) (P : β → Prop) (l : List α) (b : β)
    (h0 : P b) (hstep : ∀ b a, a ∈ l → P b → P (f b a)) : P (l.foldl f b) := by
  induction l generalizing b with
  | nil => exact h0
  | cons a as ih =>
    simp only [List.foldl_cons]
    exact ih _ (hstep b a (by simp) h0) (fun b' a' ha' hb' => hstep b' a' (by simp [ha']) hb')

theorem foldl_append_singleton {α β : Type} (g : α → β) (l : List α) (acc : List β) :
    l.foldl (fun ts a => ts ++ [g a]) acc = acc ++ l.map g := by
  induction l generalizing acc with
  | nil => simp
  | cons a as ih => simp [ih]

theorem foldl_append_flatMap {α β : Type} (g : α → List β) (l : List α) (acc : List β) :
    l.foldl (fun ts a => ts ++ g a) acc = acc ++ l.flatMap g := by
  induction l generalizing acc with
  | nil => simp
  | cons a as ih => simp [ih]

theorem withSourceTrees_eq (w : workspace) (targets : List Str) :
    withSourceTrees w targets =
      targets ++ w.gopaths.map (fun g => "./".toList ++ g ++ "/src/...".toList) := by
  unfold withSourceTrees
  exact foldl_append_singleton _ _ _

theorem withTestImports_eq (testBuf : Str) (targets : List Str) :
    withTestImports testBuf targets = targets ++ splitOn '\n' testBuf := by
  unfold withTestImports
  have := foldl_append_singleton (fun x : Str => x) (splitOn '\n' testBuf) targets
  simpa using this

theorem addonArgs_eq (entries : List (Str × Str)) :
    addonArgs entries = entries.flatMap addonPair := by
  unfold addonArgs
  have := foldl_append_flatMap addonPair entries []
  simpa [addonPair] using this

theorem godepsArgs_eq (godeps : Bool) (deps : List godep) (acc : List Str) :
    godepsArgs godeps deps acc = acc ++ (if godeps then deps.flatMap godepPair else []) := by
  unfold godepsArgs
  cases godeps with
  | false => simp
  | true =>
    have := foldl_append_flatMap godepPair deps acc
    simpa [godepPair] using this

theorem ignoreDirs_eq (w : workspace) :
    ignoreDirs w = [".git".toList, ".hg".toList, ".gocfg".toList] ++
      w.gopaths.flatMap (fun g =>
        [filepathJoin [g, "pkg".toList], filepathJoin [g, "bin".toList]]) := by
  unfold ignoreDirs
  exact foldl_append_flatMap _ _ _

theorem foldl_flag_split (flag : Str) (l : List Str) (ts : List Str) (g : Bool) :
    l.foldl (fun st t => if t = flag then (st.1, true) else (st.1 ++ [t], st.2)) (ts, g) =
      (ts ++ l.filter (fun t => t ≠ flag), g || decide (flag ∈ l)) := by
  induction l generalizing ts g with
  | nil => simp
  | cons a as ih =>
    simp only [List.foldl_cons]
    by_cases ha : a = flag
    · rw [if_pos ha, ih]
      simp [ha]
    · rw [if_neg ha, ih]
      have hne : ¬ (flag = a) := fun h => ha h.symm
      simp [ha, hne]

theorem splitSaveArgs_eq (args : List Str) :
    splitSaveArgs args =
      (args.filter (fun t => t ≠ "--godeps".toList), decide ("--godeps".toList ∈ args)) := by
  unfold splitSaveArgs
  rw [foldl_flag_split]
  simp

/-! ## Go maps -/

theorem mem_mapSet {m : GoMap} {k v : Str} {e : Str × Str} (h : e ∈ mapSet m k v) :
    e = (k, v) ∨ e ∈ m := by
  induction m with
  | nil => simp [mapSet] at h; exact Or.inl h
  | cons a as ih =>
    obtain ⟨k', v'⟩ := a
    unfold mapSet at h
    split at h
    · rcases List.mem_cons.1 h with h | h
      · exact Or.inl h
      · exact Or.inr (List.mem_cons_of_mem _ h)
    · rcases List.mem_cons.1 h with h | h
      · exact Or.inr (by simp [h])
      · rcases ih h with h | h
        · exact Or.inl h
        · exact Or.inr (List.mem_cons_of_mem _ h)

theorem mapSet_keys (m : GoMap) (k v : Str) :
    (mapSet m k v).map Prod.fst =
      if k ∈ m.map Prod.fst then m.map Prod.fst else m.map Prod.fst ++ [k] := by
  induction m with
  | nil => simp [mapSet]
  | cons a as ih =>
    obtain ⟨k', v'⟩ := a
    unfold mapSet
    by_cases hk : k' = k
    · simp [hk]
    · have hk2 : ¬ k = k' := fun h => hk h.symm
      rw [if_neg hk]
      simp only [List.map_cons, ih, List.mem_cons, hk2, false_or]
      split <;> simp

theorem mapSet_nodup {m : GoMap} (k v : Str) (h : (m.map Prod.fst).Nodup) :
    ((mapSet m k v).map Prod.fst).Nodup := by
  rw [mapSet_keys]
  split
  · exact h
  · rename_i hk
    rw [List.nodup_append]
    refine ⟨h, by simp, ?_⟩
    intro a ha hb
    simp at hb
    subst hb
    exact hk ha

theorem mapSet_mem_self (m : GoMap) (k v : Str) : (k, v) ∈ mapSet m k v := by
  induction m with
  | nil => simp [mapSet]
  | cons a as ih =>
    obtain ⟨k', v'⟩ := a
    unfold mapSet
    split
    · simp
    · exact List.mem_cons_of_mem _ ih

theorem mapSet_mem_other {m : GoMap} {k v : Str} {e : Str × Str} (h : e ∈ m) (hk : e.1 ≠ k) :
    e ∈ mapSet m k v := by
  induction m with
  | nil => simp at h
  | cons a as ih =>
    obtain ⟨k', v'⟩ := a
    unfold mapSet
    rcases List.mem_cons.1 h with h | h
    · subst h
      rw [if_neg hk]
      simp
    · split
      · exact List.mem_cons_of_mem _ h
      · exact List.mem_cons_of_mem _ (ih h)

/-- Assigning to a key the value it already has leaves the map as it is. -/
theorem mapSet_same {m : GoMap} {k v : Str} (hn : (m.map Prod.fst).Nodup) (h : (k, v) ∈ m) :
    mapSet m k v = m := by
  induction m with
  | nil => simp at h
  | cons a as ih =>
    obtain ⟨k', v'⟩ := a
    unfold mapSet
    simp only [List.map_cons, List.nodup_cons] at hn
    rcases List.mem_cons.1 h with h | h
    · injection h with h1 h2
      subst h1; subst h2
      simp
    · have hk : k' ≠ k := by
        intro hk
        subst hk
        exact hn.1 (List.mem_map.2 ⟨(k', v), h, rfl⟩)
      rw [if_neg hk, ih hn.2 h]

/-- In a map, the value found under a key is the value of its entry. -/
theorem mapGet_of_mem {m : GoMap} {k v : Str} (hn : (m.map Prod.fst).Nodup) (h : (k, v) ∈ m) :
    mapGet m k = some v := by
  induction m with
  | nil => simp at h
  | cons a as ih =>
    obtain ⟨k', v'⟩ := a
    simp only [List.map_cons, List.nodup_cons] at hn
    unfold mapGet
    rcases List.mem_cons.1 h with h | h
    · injection h with h1 h2
      subst h1; subst h2
      simp
    · have hk : k' ≠ k := by
        intro hk
        subst hk
        exact hn.1 (List.mem_map.2 ⟨(k', v), h, rfl⟩)
      have := ih hn.2 h
      unfold mapGet at this
      simp [List.find?_cons, hk, this]

/-! ## `getOutsidePackages` -/

theorem foldl_fixed {α β : Type} (f : β → α → β) (l : List α) (b : β)
    (h : ∀ a, a ∈ l → f b a = b) : l.foldl f b = b := by
  induction l with
  | nil => rfl
  | cons a as ih =>
    simp only [List.foldl_cons]
    rw [h a (by simp)]
    exact ih (fun a' ha' => h a' (by simp [ha']))

theorem secondTargets_eq (W : World) (w : workspace) (targets : List Str) (testBuf : Str)
    (h : W.goList (goListTestArgs (withSourceTrees w targets)) = some testBuf) :
    secondTargets W w targets = .ok
      (targets ++ w.gopaths.map (fun g => "./".toList ++ g ++ "/src/...".toList) ++
        splitOn '\n' testBuf) := by
  unfold secondTargets
  simp only [h]
  rw [withTestImports_eq, withSourceTrees_eq]

/-- What the loop at lines 89-101 accumulates: every entry is a non-empty line of the
listing, with the directory `build.Import` found, and passed the GOROOT test. -/
theorem resolve_entries (W : World) (lines : List Str) (acc : GoMap)
    (hacc : ∀ e ∈ acc, e.1 ≠ [] ∧ W.buildImport e.1 = some e.2 ∧
      relWithin W.goroot e.2 = false) :
    ∀ e ∈ lines.foldl (resolveStep W) acc, e.1 ≠ [] ∧ W.buildImport e.1 = some e.2 ∧
      relWithin W.goroot e.2 = false := by
  apply foldl_invariant (resolveStep W)
    (fun m => ∀ e ∈ m, e.1 ≠ [] ∧ W.buildImport e.1 = some e.2 ∧ relWithin W.goroot e.2 = false)
  · exact hacc
  · intro m pkg _ hm e he
    unfold resolveStep at he
    split at he
    · exact hm e he
    · rename_i hne
      split at he
      · exact hm e he
      · rename_i dir hdir
        split at he
        · exact hm e he
        · rename_i hrel
          rcases mem_mapSet he with h | h
          · subst h
            exact ⟨hne, hdir, by simpa using hrel⟩
          · exact hm e h

theorem resolve_nodup (W : World) (lines : List Str) (acc : GoMap)
    (hacc : (acc.map Prod.fst).Nodup) :
    ((lines.foldl (resolveStep W) acc).map Prod.fst).Nodup := by
  apply foldl_invariant (resolveStep W) (fun m => (m.map Prod.fst).Nodup)
  · exact hacc
  · intro m pkg _ hm
    unfold resolveStep
    split
    · exact hm
    · split
      · exact hm
      · split
        · exact hm
        · exact mapSet_nodup _ _ hm

theorem resolveStep_self (W : World) (pkg dir : Str) (hne : pkg ≠ [])
    (himp : W.buildImport pkg = some dir) (hrel : relWithin W.goroot dir = false)
    (acc : GoMap) : (pkg, dir) ∈ resolveStep W acc pkg := by
  unfold resolveStep
  rw [if_neg hne]
  simp only [himp, hrel]
  exact mapSet_mem_self _ _ _

theorem resolveStep_keeps (W : World) (pkg dir : Str) (hne : pkg ≠ [])
    (himp : W.buildImport pkg = some dir) (hrel : relWithin W.goroot dir = false)
    (acc : GoMap) (a : Str) (h : (pkg, dir) ∈ acc) : (pkg, dir) ∈ resolveStep W acc a := by
  by_cases ha : a = pkg
  · subst ha
    exact resolveStep_self W a dir hne himp hrel acc
  · unfold resolveStep
    split
    · exact h
    · split
      · exact h
      · split
        · exact h
        · exact mapSet_mem_other h (fun hk => ha hk.symm)

/-- A non-empty line that resolves to a directory passing the GOROOT test ends up in the
map with that directory. -/
theorem resolve_mem (W : World) (pkg dir : Str) (hne : pkg ≠ [])
    (himp : W.buildImport pkg = some dir) (hrel : relWithin W.goroot dir = false)
    (lines : List Str) (acc : GoMap) (h : pkg ∈ lines ∨ (pkg, dir) ∈ acc) :
    (pkg, dir) ∈ lines.foldl (resolveStep W) acc := by
  induction lines generalizing acc with
  | nil =>
    rcases h with h | h
    · simp at h
    · exact h
  | cons a as ih =>
    simp only [List.foldl_cons]
    apply ih
    rcases h with h | h
    · rcases List.mem_cons.1 h with h | h
      · subst h
        exact Or.inr (resolveStep_self W pkg dir hne himp hrel acc)
      · exact Or.inl h
    · exact Or.inr (resolveStep_keeps W pkg dir hne himp hrel acc a h)

/-- The loop at lines 103-111 changes nothing: it only assigns to a key the value the
key already has. -/
theorem reassign_fixed (w : workspace) (pkgs : GoMap) (order : List (Str × Str))
    (hn : (pkgs.map Prod.fst).Nodup) (hsub : ∀ e ∈ order, e ∈ pkgs) :
    order.foldl (reassignStep w) pkgs = pkgs := by
  apply foldl_fixed
  intro e he
  unfold reassignStep
  split
  · rfl
  · split
    · rfl
    · exact mapSet_same hn (hsub e he)

/-- The value of `getOutsidePackages` when both listings succeed: the map built by the
loop at lines 89-101 from the lines of the second listing. -/
theorem getOutsidePackages_eq (W : World) (w : workspace) (targets ts : List Str) (buf : Str)
    (hρ : ∀ m, ∀ e ∈ W.rangeOrder m, e ∈ m)
    (h1 : secondTargets W w targets = .ok ts) (h2 : W.goList (goListArgs ts) = some buf) :
    getOutsidePackages W w targets = .ok ((splitOn '\n' buf).foldl (resolveStep W) []) := by
  unfold getOutsidePackages
  simp only [h1, h2]
  rw [reassign_fixed w _ _ (resolve_nodup W _ [] (by simp)) (hρ _)]

/-- C8 (the code at the failing input): in the scenario, where the test-imports listing
prints the single line `testing`, the targets handed to the second listing are the
target of the caller, the source tree of the gopath, `testing`, and the empty string
that follows the final newline of the listing. -/
theorem secondTargets_appends_empty_line :
    secondTargets scenarioWorld scenarioWorkspace ["./cmd".toList] =
      .ok ["./cmd".toList, "./go/src/...".toList, "testing".toList, []] := by
  decide

/-! ## Paths: `filepath.Clean` and `filepath.Join` -/

theorem splitOn_no_sep (sep : Char) (s : Str) : ∀ e ∈ splitOn sep s, sep ∉ e := by
  induction s with
  | nil => simp [splitOn]
  | cons c cs ih =>
    by_cases hc : c = sep
    · subst hc
      rw [splitOn_cons_sep]
      intro e he
      rcases List.mem_cons.1 he with h | h
      · subst h; simp
      · exact ih e h
    · obtain ⟨t, h1, h2⟩ := splitOn_cons_ne hc cs
      rw [h2]
      rw [h1] at ih
      intro e he
      rcases List.mem_cons.1 he with h | h
      · subst h
        intro hmem
        rcases List.mem_cons.1 hmem with h' | h'
        · exact hc h'.symm
        · exact ih _ (by simp) h'
      · exact ih e (List.mem_cons_of_mem _ h)

theorem splitOn_append_sep (sep : Char) (a b : Str) :
    splitOn sep (a ++ sep :: b) = splitOn sep a ++ splitOn sep b := by
  induction a with
  | nil => simp [splitOn]
  | cons c cs ih =>
    by_cases hc : c = sep
    · subst hc
      simp only [List.cons_append, splitOn_cons_sep, ih]
    · obtain ⟨t, h1, h2⟩ := splitOn_cons_ne hc cs
      obtain ⟨t', h1', h2'⟩ := splitOn_cons_ne hc (cs ++ sep :: b)
      rw [List.cons_append, h2', h2]
      rw [h1', h1, List.cons_append] at ih
      injection ih with e1 e2
      rw [e1, e2]
      rfl

theorem joinSlash_cons (e : Str) {es : List Str} (h : es ≠ []) :
    joinSlash (e :: es) = e ++ '/' :: joinSlash es := by
  cases es with
  | nil => exact absurd rfl h
  | cons a as => rfl

theorem joinSlash_append {xs ys : List Str} (hx : xs ≠ []) (hy : ys ≠ []) :
    joinSlash (xs ++ ys) = joinSlash xs ++ '/' :: joinSlash ys := by
  induction xs with
  | nil => exact absurd rfl hx
  | cons a as ih =>
    cases as with
    | nil =>
      simp only [List.singleton_append]
      rw [joinSlash_cons a hy]
      rfl
    | cons b bs =>
      have hne : (b :: bs) ++ ys ≠ [] := by simp
      rw [List.cons_append, joinSlash_cons a hne, ih (by simp), joinSlash_cons a (by simp)]
      simp

theorem joinSlash_splitOn (s : Str) : joinSlash (splitOn '/' s) = s := by
  induction s with
  | nil => rfl
  | cons c cs ih =>
    by_cases hc : c = '/'
    · subst hc
      rw [splitOn_cons_sep, joinSlash_cons _ (splitOn_ne_nil _ _), ih]
      rfl
    · obtain ⟨t, h1, h2⟩ := splitOn_cons_ne hc cs
      rw [h2]
      rw [h1] at ih
      cases t with
      | nil =>
        simp only [joinSlash] at ih ⊢
        rw [ih]
      | cons a as =>
        rw [joinSlash_cons _ (by simp)] at ih ⊢
        rw [List.cons_append, ih]

theorem cleanStep_plain (rooted : Bool) (stack : List Str) (e : Str) (h : plainElem e) :
    cleanStep rooted stack e = e :: stack := by
  unfold cleanStep
  rw [if_neg (by rintro (h' | h'); exact h.1 h'; exact h.2.1 h'), if_neg h.2.2]

theorem foldl_cleanStep_plain (rooted : Bool) (es : List Str) (stack : List Str)
    (h : ∀ e ∈ es, plainElem e) :
    es.foldl (cleanStep rooted) stack = es.reverse ++ stack := by
  induction es generalizing stack with
  | nil => rfl
  | cons a as ih =>
    simp only [List.foldl_cons]
    rw [cleanStep_plain rooted stack a (h a (by simp)), ih _ (fun e he => h e (by simp [he]))]
    simp

/-- Every element on the stack of `filepath.Clean` is non-empty and has no slash. -/
theorem cleanStep_good (rooted : Bool) (stack : List Str) (e : Str) (he : '/' ∉ e)
    (hs : ∀ x ∈ stack, x ≠ [] ∧ '/' ∉ x) :
    ∀ x ∈ cleanStep rooted stack e, x ≠ [] ∧ '/' ∉ x := by
  unfold cleanStep
  split
  · exact hs
  · rename_i h1
    have hne : e ≠ [] := fun h => h1 (Or.inl h)
    split
    · cases stack with
      | nil =>
        simp only
        split
        · simp
        · intro x hx
          simp at hx
          subst hx
          exact ⟨hne, he⟩
      | cons top rest =>
        simp only
        split
        · intro x hx
          rcases List.mem_cons.1 hx with h | h
          · subst h; exact ⟨hne, he⟩
          · exact hs x h
        · intro x hx
          exact hs x (List.mem_cons_of_mem _ hx)
    · intro x hx
      rcases List.mem_cons.1 hx with h | h
      · subst h; exact ⟨hne, he⟩
      · exact hs x h

theorem clean_elems_good (rooted : Bool) (path : Str) :
    ∀ x ∈ ((splitOn '/' path).foldl (cleanStep rooted) []).reverse, x ≠ [] ∧ '/' ∉ x := by
  intro x hx
  rw [List.mem_reverse] at hx
  revert x
  apply foldl_invariant (cleanStep rooted) (fun st => ∀ x ∈ st, x ≠ [] ∧ '/' ∉ x)
  · simp
  · intro st e he hst
    exact cleanStep_good rooted st e (splitOn_no_sep '/' path e he) hst

theorem joinSlash_ne_nil {es : List Str} (h : es ≠ []) (hg : ∀ x ∈ es, x ≠ [] ∧ '/' ∉ x) :
    joinSlash es ≠ [] := by
  cases es with
  | nil => exact absurd rfl h
  | cons a as =>
    have ha := (hg a (by simp)).1
    cases as with
    | nil => simpa [joinSlash] using ha
    | cons b bs =>
      rw [joinSlash_cons _ (by simp)]
      simp [ha]

theorem clean_ne_nil (path : Str) : clean path ≠ [] := by
  unfold clean
  simp only
  split
  · simp
  · split
    · simp
    · rename_i h
      exact joinSlash_ne_nil h (clean_elems_good _ path)

/-- Joining a clean directory with a path made of ordinary elements appends the path
after a slash. -/
theorem filepathJoin_plain (v p : Str) (hv : clean v = v) (h1 : v ≠ ['.']) (h2 : v ≠ ['/'])
    (hp : ∀ e ∈ splitOn '/' p, plainElem e) : filepathJoin [v, p] = v ++ '/' :: p := by
  have hne : v ≠ [] := fun h => clean_ne_nil v (by rw [hv]; exact h)
  obtain ⟨c, cs, rfl⟩ := List.exists_cons_of_ne_nil hne
  have hj : filepathJoin [c :: cs, p] = clean ((c :: cs) ++ '/' :: p) := by
    simp [filepathJoin, List.dropWhile, joinSlash]
  rw [hj]
  have hroot : hasPrefix ((c :: cs) ++ '/' :: p) ['/'] = hasPrefix (c :: cs) ['/'] := by
    simp [hasPrefix, List.isPrefixOf]
  have hsplit := splitOn_append_sep '/' (c :: cs) p
  have hP : splitOn '/' p ≠ [] := splitOn_ne_nil _ _
  have hjp := joinSlash_splitOn p
  unfold clean at hv ⊢
  simp only at hv ⊢
  rw [hroot, hsplit, List.foldl_append, foldl_cleanStep_plain _ _ _ hp]
  simp only [List.reverse_append, List.reverse_reverse]
  generalize hE : ((splitOn '/' (c :: cs)).foldl (cleanStep (hasPrefix (c :: cs) ['/'])) []).reverse
    = E at hv ⊢
  by_cases hr : hasPrefix (c :: cs) ['/'] = true
  · simp only [hr, if_true] at hv ⊢
    have hE2 : E ≠ [] := by
      intro h
      subst h
      exact h2 (by rw [← hv]; rfl)
    rw [joinSlash_append hE2 hP, hjp, ← List.cons_append, hv]
  · have hr' : hasPrefix (c :: cs) ['/'] = false := by simpa using hr
    simp only [hr'] at hv ⊢
    have hE2 : E ≠ [] := by
      intro h
      subst h
      exact h1 (by rw [← hv]; simp)
    have hEP : E ++ splitOn '/' p ≠ [] := by simp [hE2]
    simp only [Bool.false_eq_true, if_false, hE2, hEP] at hv ⊢
    rw [joinSlash_append hE2 hP, hjp, hv]

/-! ## Paths: `filepath.Rel` -/

theorem relLoop_nil_left (n : Nat) (t : Str) : relLoop n [] t = ([], [], t) := by
  cases n <;> simp [relLoop]

theorem relLoop_nil_right (n : Nat) (b : Str) : relLoop n b [] = ([], b, []) := by
  cases n <;> simp [relLoop]

/-- A text is its first element, then nothing or a slash and the rest; dropping the
element and one more character leaves that rest. -/
theorem first_elem_split (l : Str) :
    ∃ rest, l = l.takeWhile (fun c => c ≠ '/') ++ rest ∧
      (rest = [] ∨ ∃ r, rest = '/' :: r) ∧
      l.drop ((l.takeWhile (fun c => c ≠ '/')).length + 1) = rest.tail := by
  induction l with
  | nil => exact ⟨[], by simp, Or.inl rfl, by simp⟩
  | cons c cs ih =>
    by_cases hc : c = '/'
    · subst hc
      exact ⟨'/' :: cs, by simp, Or.inr ⟨cs, rfl⟩, by simp⟩
    · obtain ⟨rest, h1, h2, h3⟩ := ih
      refine ⟨rest, ?_, h2, ?_⟩
      · have : (c :: cs).takeWhile (fun c => c ≠ '/') = c :: cs.takeWhile (fun c => c ≠ '/') := by
          simp [hc]
        rw [this, List.cons_append, ← h1]
      · have : (c :: cs).takeWhile (fun c => c ≠ '/') = c :: cs.takeWhile (fun c => c ≠ '/') := by
          simp [hc]
        rw [this]
        simpa using h3

theorem relLoop_done (n : Nat) : ∀ (b t be tr : Str), b.length < n →
    relLoop n b t = (be, [], tr) → RelDone b t tr := by
  induction n with
  | zero => intro b t be tr h; exact absurd h (Nat.not_lt_zero _)
  | succ n ih =>
    intro b t be tr hlen h
    unfold relLoop at h
    split at h
    · simp only [Prod.mk.injEq] at h
      exact Or.inl ⟨h.2.1, h.2.2.symm⟩
    · rename_i hne
      have hb : b ≠ [] := fun hb => hne (Or.inl hb)
      have ht : t ≠ [] := fun ht => hne (Or.inr ht)
      simp only at h
      split at h
      · simp only [Prod.mk.injEq] at h
        exact absurd h.2.1 hb
      · rename_i heq
        have heq : t.takeWhile (fun c => c ≠ '/') = b.takeWhile (fun c => c ≠ '/') := by
          simpa using heq
        obtain ⟨bd, hb1, hb2, hb3⟩ := first_elem_split b
        obtain ⟨td, ht1, ht2, ht3⟩ := first_elem_split t
        rw [hb3, ht3] at h
        rw [heq] at ht1
        generalize hX : b.takeWhile (fun c => c ≠ '/') = X at hb1 ht1
        have hlen1 : bd.tail.length < n := by
          have : b.length = X.length + bd.length := by rw [hb1]; simp
          have h2 : bd.tail.length ≤ bd.length - 1 := by simp
          cases bd with
          | nil =>
            cases X with
            | nil => rw [hb1] at hb; exact absurd rfl hb
            | cons x xs => simp at this ⊢; omega
          | cons y ys => simp at this ⊢; omega
        rcases hb2 with hbd | ⟨b1, hbd⟩
        · subst hbd
          simp only [List.tail_nil, relLoop_nil_left, Prod.mk.injEq, true_and] at h
          rcases ht2 with htd | ⟨t1, htd⟩
          · subst htd
            simp only [List.tail_nil] at h
            right; left
            exact ⟨by rw [ht1, hb1], h.2.symm⟩
          · subst htd
            simp only [List.tail_cons] at h
            right; right; left
            rw [ht1, hb1, ← h.2]
            simp
        · subst hbd
          simp only [List.tail_cons] at h hlen1
          rcases ht2 with htd | ⟨t1, htd⟩
          · subst htd
            simp only [List.tail_nil, relLoop_nil_right, Prod.mk.injEq] at h
            obtain ⟨_, hb1nil, htr⟩ := h
            subst hb1nil
            right; right; right; right
            exact ⟨htr.symm, by rw [hb1, ht1]; simp⟩
          · subst htd
            simp only [List.tail_cons] at h
            by_cases hb1nil : b1 = []
            · subst hb1nil
              simp only [relLoop_nil_left, Prod.mk.injEq, true_and] at h
              right; right; right; left
              exact ⟨X, hb1, by rw [ht1, hb1, ← h.2]; simp⟩
            · rcases ih b1 t1 be tr hlen1 h with h' | h' | h' | h' | h'
              · exact absurd h'.1 hb1nil
              · right; left
                exact ⟨by rw [ht1, hb1, h'.1], h'.2⟩
              · right; right; left
                rw [ht1, hb1, h']
                simp
              · obtain ⟨q, hq1, hq2⟩ := h'
                right; right; right; left
                exact ⟨X ++ '/' :: q, by rw [hb1, hq1]; simp, by rw [ht1, hb1, hq2]; simp⟩
              · right; right; right; right
                exact ⟨h'.1, by rw [hb1, ht1, h'.2]; simp⟩

theorem joinSlash_getLast {es : List Str} (hne : es ≠ [])
    (hg : ∀ x ∈ es, x ≠ [] ∧ '/' ∉ x) :
    ∃ c, (joinSlash es).getLast? = some c ∧ c ≠ '/' := by
  induction es with
  | nil => exact absurd rfl hne
  | cons a as ih =>
    cases as with
    | nil =>
      obtain ⟨ha1, ha2⟩ := hg a (by simp)
      simp only [joinSlash]
      cases hl : a.getLast? with
      | none => exact absurd (List.getLast?_eq_none_iff.1 hl) ha1
      | some c =>
        refine ⟨c, rfl, ?_⟩
        intro hc
        subst hc
        exact ha2 (List.mem_of_getLast?_eq_some hl)
    | cons b bs =>
      obtain ⟨c, hc1, hc2⟩ := ih (by simp) (fun x hx => hg x (List.mem_cons_of_mem _ hx))
      refine ⟨c, ?_, hc2⟩
      rw [joinSlash_cons _ (by simp)]
      have hJ : joinSlash (b :: bs) ≠ [] := by
        intro h
        rw [h] at hc1
        simp at hc1
      rw [List.getLast?_append_of_ne_nil _ (by simp)]
      obtain ⟨x, xs, hx⟩ := List.exists_cons_of_ne_nil hJ
      rw [hx] at hc1 ⊢
      rw [List.getLast?_cons_cons]
      exact hc1

/-- The cleaned form of a rooted path: a slash, then the kept elements joined. -/
theorem clean_rooted (p : Str) (h : isAbs p = true) :
    ∃ es : List Str, clean p = '/' :: joinSlash es ∧ ∀ x ∈ es, x ≠ [] ∧ '/' ∉ x := by
  refine ⟨((splitOn '/' p).foldl (cleanStep true) []).reverse, ?_, clean_elems_good true p⟩
  unfold isAbs at h
  unfold clean
  simp only [h, if_true]

/-- A cleaned rooted path ends with a slash only when it is the root `/`. -/
theorem clean_rooted_trailing (p q : Str) (h : isAbs p = true) (hq : clean p = q ++ ['/']) :
    clean p = ['/'] := by
  obtain ⟨es, he, hg⟩ := clean_rooted p h
  by_cases hes : es = []
  · rw [he, hes]; rfl
  · exfalso
    obtain ⟨c, hc1, hc2⟩ := joinSlash_getLast hes hg
    have hJ : joinSlash es ≠ [] := joinSlash_ne_nil hes hg
    have h1 : (clean p).getLast? = some c := by
      rw [he]
      obtain ⟨x, xs, hx⟩ := List.exists_cons_of_ne_nil hJ
      rw [hx] at hc1 ⊢
      rw [List.getLast?_cons_cons]
      exact hc1
    rw [hq] at h1
    simp at h1
    exact hc2 h1.symm

/-- Soundness of the test at lines 97, 107, 138 and 183 for an absolute root: when the
test holds, the directory is the root or below it. -/
theorem relWithin_sound (root dir : Str) (habs : isAbs root = true)
    (h : relWithin root dir = true) : isInside root dir = true := by
  obtain ⟨es, hr, _⟩ := clean_rooted root habs
  unfold isInside
  simp only
  by_cases hd : clean dir = clean root
  · simp [hd]
  · unfold relWithin at h
    cases hrel : filepathRel root dir with
    | none => rw [hrel] at h; simp at h
    | some x =>
      rw [hrel] at h
      have hx : hasPrefix x ['.', '.'] = false := by simpa using h
      unfold filepathRel at hrel
      simp only [hd, if_false] at hrel
      have hdot : clean root ≠ ['.'] := by rw [hr]; simp
      simp only [hdot, if_false] at hrel
      have hbs : hasPrefix (clean root) ['/'] = true := by rw [hr]; simp [hasPrefix]
      by_cases hsl : hasPrefix (clean root) ['/'] ≠ hasPrefix (clean dir) ['/']
      · rw [if_pos hsl] at hrel; simp at hrel
      · rw [if_neg hsl] at hrel
        have hts : hasPrefix (clean dir) ['/'] = true := by
          rw [hbs] at hsl
          simpa using hsl
        generalize hloop : relLoop ((clean root).length + 1) (clean root) (clean dir) = res
          at hrel
        obtain ⟨be, bRest, tRest⟩ := res
        simp only at hrel
        by_cases hbe : be = ['.', '.']
        · rw [if_pos hbe] at hrel; simp at hrel
        · rw [if_neg hbe] at hrel
          by_cases hb : bRest ≠ []
          · rw [if_pos hb] at hrel
            injection hrel with hrel
            rw [← hrel] at hx
            simp [hasPrefix] at hx
          · have hb : bRest = [] := by simpa using hb
            subst hb
            have hQ := relLoop_done _ _ _ _ _ (Nat.lt_succ_self _) hloop
            rcases hQ with h' | h' | h' | h' | h'
            · rw [hr] at h'; simp at h'
            · exact absurd h'.1 hd
            · by_cases hroot : clean root = ['/']
              · simp [hroot, hts]
              · simp only [hroot, if_false]
                rw [Bool.or_eq_true]
                right
                exact (hasPrefix_iff _ _).2 ⟨tRest, by rw [h']; simp⟩
            · obtain ⟨q, hq, _⟩ := h'
              have := clean_rooted_trailing root q habs hq
              simp [this, hts]
            · have := clean_rooted_trailing root _ habs h'.2
              simp [this, hts]

/-! ## The packages `getOutsidePackages` returns -/

/-- C2 (the code at the failing input): with GOROOT `/usr/local/go` and a package
resolved to `/usr/local/go/..ws/go/src/foo`, a path below GOROOT, the relative path
computed at line 97 is `..ws/go/src/foo`; it begins with two dots, so the entry is
kept in the returned map. -/
theorem getOutsidePackages_keeps_dir_below_goroot :
    filepathRel dotdotWorld.goroot "/usr/local/go/..ws/go/src/foo".toList =
      some "..ws/go/src/foo".toList ∧
    isInside dotdotWorld.goroot "/usr/local/go/..ws/go/src/foo".toList = true ∧
    getOutsidePackages dotdotWorld dotdotWorkspace [] =
      .ok [("foo".toList, "/usr/local/go/..ws/go/src/foo".toList)] := by
  decide

/-- C3 (the code at the failing input): in the workspace `/ws` a package resolved to
`/ws/..deps/src/foo`, a directory below the workspace root, is stored in the destination
mapping of `save`, because its path relative to the root begins with two dots. -/
theorem addonMapping_stores_dir_below_root :
    filepathRel dotdotDepsWorkspace.root "/ws/..deps/src/foo".toList =
      some "..deps/src/foo".toList ∧
    isInside dotdotDepsWorkspace.root "/ws/..deps/src/foo".toList = true ∧
    addonMapping scenarioWorld dotdotDepsWorkspace
        [("foo".toList, "/ws/..deps/src/foo".toList)] =
      [("/ws/vendor/src/foo".toList, "/ws/..deps/src/foo".toList)] := by
  decide

/-- C9 (counterexample): in the scenario the package `example.com/app` resolves to
`/ws/go/src/example.com/app`, inside the workspace root `/ws` and outside GOROOT; the
returned map holds that resolved directory itself under the import path, not a marker. -/
theorem getOutsidePackages_no_marker_counterexample :
    scenarioWorld.buildImport "example.com/app".toList =
      some "/ws/go/src/example.com/app".toList ∧
    isInside scenarioWorkspace.root "/ws/go/src/example.com/app".toList = true ∧
    isInside scenarioWorld.goroot "/ws/go/src/example.com/app".toList = false ∧
    getOutsidePackages scenarioWorld scenarioWorkspace ["./cmd".toList] =
      .ok [("example.com/app".toList, "/ws/go/src/example.com/app".toList),
           ("example.com/dep".toList, "/home/user/gocode/src/example.com/dep".toList)] := by
  decide

/-- C9 (amended): when both listings succeed, every package that the second listing
names, that `build.Import` resolves to a directory inside the workspace root and that
is not inside an absolute GOROOT, has an entry in the map `getOutsidePackages` returns,
and the directory stored in that entry is the resolved directory, unchanged. -/
theorem getOutsidePackages_keeps_workspace_package (W : World) (w : workspace)
    (targets ts : List Str) (buf pkg dir : Str)
    (hρ : ∀ m, ∀ e ∈ W.rangeOrder m, e ∈ m)
    (h1 : secondTargets W w targets = .ok ts) (h2 : W.goList (goListArgs ts) = some buf)
    (hline : pkg ∈ splitOn '\n' buf) (hne : pkg ≠ [])
    (himp : W.buildImport pkg = some dir)
    (_hroot : isInside w.root dir = true)
    (hgoroot : isAbs W.goroot = true) (hout : isInside W.goroot dir = false) :
    ∃ pkgs, getOutsidePackages W w targets = .ok pkgs ∧ mapGet pkgs pkg = some dir := by
  refine ⟨_, getOutsidePackages_eq W w targets ts buf hρ h1 h2, ?_⟩
  have hrel : relWithin W.goroot dir = false := by
    cases hr : relWithin W.goroot dir with
    | false => rfl
    | true =>
      have := relWithin_sound W.goroot dir hgoroot hr
      rw [hout] at this
      exact absurd this (by simp)
  exact mapGet_of_mem (resolve_nodup W _ [] (by simp))
    (resolve_mem W pkg dir hne himp hrel _ [] (Or.inl hline))

/-- Witness for C9 (amended): the package `example.com/app` of the scenario. -/
theorem getOutsidePackages_keeps_workspace_package_witness :
    ∃ pkgs, getOutsidePackages scenarioWorld scenarioWorkspace ["./cmd".toList] = .ok pkgs ∧
      mapGet pkgs "example.com/app".toList = some "/ws/go/src/example.com/app".toList :=
  getOutsidePackages_keeps_workspace_package scenarioWorld scenarioWorkspace
    ["./cmd".toList] ["./cmd".toList, "./go/src/...".toList, "testing".toList, []]
    "example.com/app\nexample.com/dep\nfmt\ntesting\n".toList
    "example.com/app".toList "/ws/go/src/example.com/app".toList
    (fun m e he => List.mem_reverse.1 he)
    (by decide) (by decide) (by decide) (by decide) (by decide) (by decide) (by decide)
    (by decide)

/-! ## `save` -/

/-- The value of `save` when the probe passes and the packages are resolved. -/
theorem save_eq (W : World) (w : workspace) (args : List Str) (pkgs : GoMap)
    (hprobe : ensureVendor W.vendorStderr W.vendorVersionStdout = .ok ())
    (hpk : getOutsidePackages W w (args.filter (fun t => t ≠ "--godeps".toList)) = .ok pkgs) :
    save W w args = .ok
      { args := ["wgo".toList, "vendor".toList, "-x".toList, "-s".toList] ++
          ((W.rangeOrder (addonMapping W w (W.rangeOrder pkgs))).flatMap addonPair ++
            (if "--godeps".toList ∈ args then W.importGodeps.flatMap godepPair else [])),
        ignoreDirsStr := joinWith W.listSeparator (ignoreDirs w) } := by
  unfold save
  rw [hprobe]
  simp only [splitSaveArgs_eq, hpk, godepsArgs_eq, addonArgs_eq]
  by_cases hg : "--godeps".toList ∈ args
  · simp only [hg, decide_True, if_true]
  · simp only [hg, decide_False, if_false]
    simp

/-- Every entry of the destination mapping has an absolute source directory that fails
the test `relWithin` against the workspace root. -/
theorem addonMapping_values (W : World) (w : workspace) (pkgs : List (Str × Str)) :
    ∀ e ∈ addonMapping W w pkgs, isAbs e.2 = true ∧ relWithin w.root e.2 = false ∧
      ∃ p, p ∈ pkgs ∧ e = (filepathJoin [W.vendorRootSrc, p.1], p.2) := by
  unfold addonMapping
  have gen : ∀ (l : List (Str × Str)) (acc : GoMap),
      (∀ e ∈ acc, isAbs e.2 = true ∧ relWithin w.root e.2 = false ∧
        ∃ p, p ∈ pkgs ∧ e = (filepathJoin [W.vendorRootSrc, p.1], p.2)) →
      (∀ p ∈ l, p ∈ pkgs) →
      ∀ e ∈ l.foldl (addonStep W w) acc, isAbs e.2 = true ∧ relWithin w.root e.2 = false ∧
        ∃ p, p ∈ pkgs ∧ e = (filepathJoin [W.vendorRootSrc, p.1], p.2) := by
    intro l
    induction l with
    | nil => intro acc hacc _; exact hacc
    | cons a as ih =>
      intro acc hacc hl
      simp only [List.foldl_cons]
      apply ih
      · intro e he
        unfold addonStep at he
        simp only at he
        split at he
        · exact hacc e he
        · rename_i habs
          split at he
          · exact hacc e he
          · rename_i hrel
            rcases mem_mapSet he with h | h
            · subst h
              exact ⟨by simpa using habs, by simpa using hrel, a, hl a (by simp), rfl⟩
            · exact hacc e h
      · intro p hp
        exact hl p (by simp [hp])
  exact gen pkgs [] (by simp) (fun p hp => hp)

/-- C5: when the probe passes and the packages are resolved, `save` hands the vendoring
tool exactly `wgo vendor -x -s`, then one pair `-a`, destination`=`source for each entry
of the destination mapping (in the order the loop visits the map), then, only when
`--godeps` is among the arguments, one pair `-r`kind, root`=`repo`@`rev per legacy
record in record order.  For a clean vendor root the package `example.com/dep` resolved
to `/home/user/gocode/src/example.com/dep` outside the workspace gives the pair `-a`,
`<vendorRoot>/example.com/dep=/home/user/gocode/src/example.com/dep`. -/
theorem save_argument_list (W : World) (w : workspace) (args : List Str) (pkgs : GoMap)
    (hρ : ∀ m, (W.rangeOrder m).Perm m)
    (hprobe : ensureVendor W.vendorStderr W.vendorVersionStdout = .ok ())
    (hpk : getOutsidePackages W w (args.filter (fun t => t ≠ "--godeps".toList)) = .ok pkgs) :
    (∃ (call : VendorCall) (order : List (Str × Str)), save W w args = .ok call ∧
      List.Perm order (addonMapping W w (W.rangeOrder pkgs)) ∧
      call.args = ["wgo".toList, "vendor".toList, "-x".toList, "-s".toList] ++
        order.flatMap addonPair ++
        (if "--godeps".toList ∈ args then W.importGodeps.flatMap godepPair else [])) ∧
    (clean W.vendorRootSrc = W.vendorRootSrc → W.vendorRootSrc ≠ ['.'] →
      W.vendorRootSrc ≠ ['/'] → isAbs w.root = true →
      isInside w.root "/home/user/gocode/src/example.com/dep".toList = false →
      addonArgs (addonMapping W w
        [("example.com/dep".toList, "/home/user/gocode/src/example.com/dep".toList)]) =
        ["-a".toList, W.vendorRootSrc ++ "/example.com/dep".toList ++
          "=/home/user/gocode/src/example.com/dep".toList]) := by
  constructor
  · refine ⟨_, W.rangeOrder (addonMapping W w (W.rangeOrder pkgs)),
      save_eq W w args pkgs hprobe hpk, hρ _, ?_⟩
    simp
  · intro hv h1 h2 hroot hout
    have hrel : relWithin w.root "/home/user/gocode/src/example.com/dep".toList = false := by
      cases hr : relWithin w.root "/home/user/gocode/src/example.com/dep".toList with
      | false => rfl
      | true =>
        have := relWithin_sound _ _ hroot hr
        rw [hout] at this
        exact absurd this (by simp)
    have hj := filepathJoin_plain W.vendorRootSrc "example.com/dep".toList hv h1 h2
      (by decide)
    have habs : isAbs "/home/user/gocode/src/example.com/dep".toList = true := by decide
    simp only [addonMapping, List.foldl_cons, List.foldl_nil, addonStep, habs, hrel, hj]
    simp [mapSet, addonArgs]

/-- Witness for C5: the scenario, with `--godeps` among the arguments. -/
theorem save_argument_list_witness :
    save scenarioWorld scenarioWorkspace ["--godeps".toList, "./cmd".toList] = .ok
      { args := ["wgo".toList, "vendor".toList, "-x".toList, "-s".toList, "-a".toList,
          "/ws/vendor/src/example.com/dep=/home/user/gocode/src/example.com/dep".toList,
          "-rgit".toList, "github.com/a/b=https://github.com/a/b@1f2e3d".toList],
        ignoreDirsStr := ".git:.hg:.gocfg:go/pkg:go/bin".toList } ∧
    addonArgs (addonMapping scenarioWorld scenarioWorkspace
        [("example.com/dep".toList, "/home/user/gocode/src/example.com/dep".toList)]) =
      ["-a".toList, scenarioWorld.vendorRootSrc ++ "/example.com/dep".toList ++
        "=/home/user/gocode/src/example.com/dep".toList] :=
  ⟨by decide,
   (save_argument_list scenarioWorld scenarioWorkspace ["--godeps".toList, "./cmd".toList]
      [("example.com/app".toList, "/ws/go/src/example.com/app".toList),
       ("example.com/dep".toList, "/home/user/gocode/src/example.com/dep".toList)]
      (fun m => List.reverse_perm m) (by decide) (by decide)).2
      (by decide) (by decide) (by decide) (by decide) (by decide)⟩

/-- C6 (counterexample): for the gopath `.` the ignore list holds `pkg` and `bin`, not
`./pkg` and `./bin`. -/
theorem ignoreDirs_dot_counterexample :
    ignoreDirs { root := "/ws".toList, gopaths := [".".toList] } =
      [".git".toList, ".hg".toList, ".gocfg".toList, "pkg".toList, "bin".toList] ∧
    specIgnoreDirs [".".toList] =
      [".git".toList, ".hg".toList, ".gocfg".toList, "./pkg".toList, "./bin".toList] ∧
    ignoreDirs { root := "/ws".toList, gopaths := [".".toList] } ≠
      specIgnoreDirs [".".toList] := by
  decide

/-- C6 (amended): the ignore list `save` builds is `.git`, `.hg`, `.gocfg` followed, for
each gopath in order, by `filepath.Join(gopath, "pkg")` and `filepath.Join(gopath, "bin")`,
3 + 2n entries; the joined paths are `<gopath>/pkg` and `<gopath>/bin` for every gopath
in clean form other than `.` and `/`, so for such gopaths the list is the one the
specification words; when the probe passes and the packages are resolved, the value
`save` exports as `VENDOR_IGNORE_DIRS` is the entries joined by the path-list separator;
for the gopaths `go`, `extra` the list is `.git`, `.hg`, `.gocfg`, `go/pkg`, `go/bin`,
`extra/pkg`, `extra/bin`. -/
theorem ignoreDirs_cleaned_joins (W : World) (w : workspace) (args : List Str) (pkgs : GoMap)
    (hprobe : ensureVendor W.vendorStderr W.vendorVersionStdout = .ok ())
    (hpk : getOutsidePackages W w (args.filter (fun t => t ≠ "--godeps".toList)) = .ok pkgs) :
    ignoreDirs w = [".git".toList, ".hg".toList, ".gocfg".toList] ++
      w.gopaths.flatMap (fun g =>
        [filepathJoin [g, "pkg".toList], filepathJoin [g, "bin".toList]]) ∧
    (ignoreDirs w).length = 3 + 2 * w.gopaths.length ∧
    ((∀ g ∈ w.gopaths, clean g = g ∧ g ≠ ['.'] ∧ g ≠ ['/']) →
      ignoreDirs w = specIgnoreDirs w.gopaths) ∧
    (∃ call, save W w args = .ok call ∧
      call.ignoreDirsStr = joinWith W.listSeparator (ignoreDirs w)) ∧
    ignoreDirs { root := w.root, gopaths := ["go".toList, "extra".toList] } =
      [".git".toList, ".hg".toList, ".gocfg".toList, "go/pkg".toList, "go/bin".toList,
       "extra/pkg".toList, "extra/bin".toList] := by
  refine ⟨ignoreDirs_eq w, ?_, ?_, ⟨_, save_eq W w args pkgs hprobe hpk, rfl⟩, by rfl⟩
  · rw [ignoreDirs_eq]
    have : ∀ l : List Str, (l.flatMap (fun g =>
        [filepathJoin [g, "pkg".toList], filepathJoin [g, "bin".toList]])).length =
        2 * l.length := by
      intro l
      induction l with
      | nil => rfl
      | cons a as ih =>
        simp only [List.flatMap_cons, List.length_append, ih, List.length_cons,
          List.length_nil]
        omega
    simp only [List.length_append, this]
    simp
  · intro hclean
    rw [ignoreDirs_eq]
    unfold specIgnoreDirs
    congr 1
    have : ∀ l : List Str, (∀ g ∈ l, clean g = g ∧ g ≠ ['.'] ∧ g ≠ ['/']) →
        l.flatMap (fun g => [filepathJoin [g, "pkg".toList], filepathJoin [g, "bin".toList]]) =
        l.flatMap (fun g => [g ++ "/pkg".toList, g ++ "/bin".toList]) := by
      intro l
      induction l with
      | nil => intro _; rfl
      | cons a as ih =>
        intro h
        obtain ⟨h1, h2, h3⟩ := h a (by simp)
        simp only [List.flatMap_cons]
        rw [ih (fun g hg => h g (by simp [hg])),
          filepathJoin_plain a "pkg".toList h1 h2 h3 (by decide),
          filepathJoin_plain a "bin".toList h1 h2 h3 (by decide)]
        rfl
    exact this _ hclean

/-- Witness for C6 (amended): the scenario. -/
theorem ignoreDirs_cleaned_joins_witness :
    ignoreDirs scenarioWorkspace = specIgnoreDirs scenarioWorkspace.gopaths ∧
    ∃ call, save scenarioWorld scenarioWorkspace ["./cmd".toList] = .ok call ∧
      call.ignoreDirsStr = joinWith ':' (ignoreDirs scenarioWorkspace) :=
  have h := ignoreDirs_cleaned_joins scenarioWorld scenarioWorkspace ["./cmd".toList]
    [("example.com/app".toList, "/ws/go/src/example.com/app".toList),
     ("example.com/dep".toList, "/home/user/gocode/src/example.com/dep".toList)]
    (by decide) (by decide)
  ⟨h.2.2.1 (by decide), h.2.2.2.1⟩

/-! ## `vendor` (promote into the workspace) -/

theorem map_value_unique {m : GoMap} {k v v' : Str} (hn : (m.map Prod.fst).Nodup)
    (h : (k, v) ∈ m) (h' : (k, v') ∈ m) : v = v' := by
  have e1 := mapGet_of_mem hn h
  have e2 := mapGet_of_mem hn h'
  rw [e1] at e2
  exact Option.some.inj e2

/-- What the loop of `vendor` prints and copies comes from packages with an absolute
directory. -/
theorem vendorLoop_sources {σ : Type} (F : FileSystem σ) (w : workspace) (s : σ)
    (pkgs : List (Str × Str)) :
    (∀ p ∈ (vendorLoop F w s pkgs).printed, ∃ d, (p, d) ∈ pkgs ∧ isAbs d = true) ∧
    (∀ c ∈ (vendorLoop F w s pkgs).copied, isAbs c.1 = true) := by
  unfold vendorLoop
  apply foldl_invariant (vendorStep F w)
    (fun run => (∀ p ∈ run.printed, ∃ d, (p, d) ∈ pkgs ∧ isAbs d = true) ∧
      (∀ c ∈ run.copied, isAbs c.1 = true))
  · simp
  · intro run e he hrun
    unfold vendorStep
    simp only
    split
    · exact hrun
    · rename_i habs
      have habs : isAbs e.2 = true := by simpa using habs
      split
      · exact hrun
      · split
        · exact hrun
        · constructor
          · intro p hp
            rcases List.mem_append.1 hp with h | h
            · exact hrun.1 p h
            · simp only [List.mem_singleton] at h
              subst h
              exact ⟨e.2, he, habs⟩
          · intro c hc
            rcases List.mem_append.1 hc with h | h
            · exact hrun.2 c h
            · simp only [List.mem_singleton] at h
              subst h
              exact habs

/-- C4: a resolved package whose directory is not an absolute path is left out by both
modes.  In save mode its loop step leaves the destination mapping as it is, no entry of
the mapping has its directory as source, and every argument built from the mapping is
`-a` or destination`=`source of an entry with another source; in promote mode its loop
step changes nothing, its import path is not printed and no copy has its directory as
source. -/
theorem nonAbsolute_dir_excluded {σ : Type} (W : World) (F : FileSystem σ) (w : workspace)
    (pkgs : GoMap) (pkg dir : Str) (s : σ)
    (hn : (pkgs.map Prod.fst).Nodup) (hmem : (pkg, dir) ∈ pkgs) (hrel : isAbs dir = false) :
    (∀ m, addonStep W w m (pkg, dir) = m) ∧
    (∀ e ∈ addonMapping W w pkgs, e.2 ≠ dir) ∧
    (∀ entries : List (Str × Str), (∀ e ∈ entries, e ∈ addonMapping W w pkgs) →
      ∀ x ∈ addonArgs entries, x = "-a".toList ∨
        ∃ e ∈ entries, e.2 ≠ dir ∧ x = e.1 ++ "=".toList ++ e.2) ∧
    (∀ run : PromoteRun σ, vendorStep F w run (pkg, dir) = run) ∧
    pkg ∉ (vendorLoop F w s pkgs).printed ∧
    (∀ c ∈ (vendorLoop F w s pkgs).copied, c.1 ≠ dir) := by
  have hval : ∀ e ∈ addonMapping W w pkgs, e.2 ≠ dir := by
    intro e he hed
    have := (addonMapping_values W w pkgs e he).1
    rw [hed, hrel] at this
    exact absurd this (by simp)
  refine ⟨?_, hval, ?_, ?_, ?_, ?_⟩
  · intro m
    simp [addonStep, hrel]
  · intro entries hsub x hx
    rw [addonArgs_eq, List.mem_flatMap] at hx
    obtain ⟨e, he, hxe⟩ := hx
    simp only [addonPair, List.mem_cons, List.mem_singleton, List.not_mem_nil, or_false] at hxe
    rcases hxe with h | h
    · exact Or.inl h
    · exact Or.inr ⟨e, he, hval e (hsub e he), h⟩
  · intro run
    simp [vendorStep, hrel]
  · intro hp
    obtain ⟨d, hd, habs⟩ := (vendorLoop_sources F w s pkgs).1 pkg hp
    have := map_value_unique hn hmem hd
    rw [← this, hrel] at habs
    exact absurd habs (by simp)
  · intro c hc hcd
    have := (vendorLoop_sources F w s pkgs).2 c hc
    rw [hcd, hrel] at this
    exact absurd this (by simp)

/-- Witness for C4: a map with the package `local` whose directory `src/local` is not
absolute, next to the package `example.com/dep` of the scenario. -/
theorem nonAbsolute_dir_excluded_witness :
    "local".toList ∉ (vendorLoop pathSetFS scenarioWorkspace []
      [("local".toList, "src/local".toList),
       ("example.com/dep".toList, "/home/user/gocode/src/example.com/dep".toList)]).printed ∧
    ∀ e ∈ addonMapping scenarioWorld scenarioWorkspace
      [("local".toList, "src/local".toList),
       ("example.com/dep".toList, "/home/user/gocode/src/example.com/dep".toList)],
      e.2 ≠ "src/local".toList :=
  have h := nonAbsolute_dir_excluded scenarioWorld pathSetFS scenarioWorkspace
    [("local".toList, "src/local".toList),
     ("example.com/dep".toList, "/home/user/gocode/src/example.com/dep".toList)]
    "local".toList "src/local".toList [] (by decide) (by decide) (by decide)
  ⟨h.2.2.2.2.1, h.2.1⟩

theorem vendorStep_mono {σ : Type} (F : FileSystem σ)
    (hkeep : ∀ s src dst p, F.stat s p = true → F.stat (F.copyDir src dst s) p = true)
    (w : workspace) (run : PromoteRun σ) (e : Str × Str) (p : Str)
    (h : F.stat run.fs p = true) : F.stat (vendorStep F w run e).fs p = true := by
  unfold vendorStep
  simp only
  split
  · exact h
  · split
    · exact h
    · split
      · exact h
      · exact hkeep _ _ _ _ h

/-- The package needs no copy in the state of the run: its directory is not absolute, or
passes the workspace test, or its destination exists. -/
theorem vendorStep_fixed {σ : Type} (F : FileSystem σ) (w : workspace) (run : PromoteRun σ)
    (e : Str × Str)
    (h : isAbs e.2 = false ∨ relWithin w.root e.2 = true ∨
      F.stat run.fs (filepathJoin [firstGopath w, "src".toList, e.1]) = true) :
    vendorStep F w run e = run := by
  unfold vendorStep
  simp only
  split
  · rfl
  · rename_i h1
    split
    · rfl
    · rename_i h2
      split
      · rfl
      · rename_i h3
        rcases h with h | h | h
        · rw [h] at h1; exact absurd rfl h1
        · exact absurd h h2
        · exact absurd h h3

theorem vendorStep_settles {σ : Type} (F : FileSystem σ)
    (hmk : ∀ s src dst, F.stat (F.copyDir src dst s) dst = true)
    (w : workspace) (run : PromoteRun σ) (e : Str × Str) :
    isAbs e.2 = false ∨ relWithin w.root e.2 = true ∨
      F.stat (vendorStep F w run e).fs (filepathJoin [firstGopath w, "src".toList, e.1]) =
        true := by
  unfold vendorStep
  simp only
  split
  · rename_i h1
    exact Or.inl (by simpa using h1)
  · split
    · rename_i h2
      exact Or.inr (Or.inl h2)
    · split
      · rename_i h3
        exact Or.inr (Or.inr h3)
      · exact Or.inr (Or.inr (hmk _ _ _))

theorem vendorLoop_settles {σ : Type} (F : FileSystem σ)
    (hmk : ∀ s src dst, F.stat (F.copyDir src dst s) dst = true)
    (hkeep : ∀ s src dst p, F.stat s p = true → F.stat (F.copyDir src dst s) p = true)
    (w : workspace) (l : List (Str × Str)) :
    ∀ (run : PromoteRun σ) (e : Str × Str),
      (e ∈ l ∨ isAbs e.2 = false ∨ relWithin w.root e.2 = true ∨
        F.stat run.fs (filepathJoin [firstGopath w, "src".toList, e.1]) = true) →
      isAbs e.2 = false ∨ relWithin w.root e.2 = true ∨
        F.stat (l.foldl (vendorStep F w) run).fs
          (filepathJoin [firstGopath w, "src".toList, e.1]) = true := by
  induction l with
  | nil =>
    intro run e h
    rcases h with h | h
    · simp at h
    · exact h
  | cons a as ih =>
    intro run e h
    simp only [List.foldl_cons]
    apply ih
    rcases h with h | h | h | h
    · rcases List.mem_cons.1 h with h | h
      · subst h
        exact Or.inr (vendorStep_settles F hmk w run e)
      · exact Or.inl h
    · exact Or.inr (Or.inl h)
    · exact Or.inr (Or.inr (Or.inl h))
    · exact Or.inr (Or.inr (Or.inr (vendorStep_mono F hkeep w run a _ h)))

theorem replayFresh_append {σ : Type} (F : FileSystem σ) (cs : List (Str × Str))
    (c : Str × Str) (s s' : σ) (h : replayFresh F s cs = some s')
    (hc : F.stat s' c.2 = false) :
    replayFresh F s (cs ++ [c]) = some (F.copyDir c.1 c.2 s') := by
  induction cs generalizing s with
  | nil =>
    simp only [replayFresh] at h
    injection h with h
    subst h
    simp [replayFresh, hc]
  | cons a as ih =>
    simp only [List.cons_append, replayFresh] at h ⊢
    split at h
    · simp at h
    · rename_i hs
      rw [if_neg hs]
      exact ih _ h

theorem vendorLoop_replay {σ : Type} (F : FileSystem σ) (w : workspace) (s : σ)
    (pkgs : List (Str × Str)) :
    replayFresh F s (vendorLoop F w s pkgs).copied = some (vendorLoop F w s pkgs).fs := by
  unfold vendorLoop
  apply foldl_invariant (vendorStep F w)
    (fun run => replayFresh F s run.copied = some run.fs)
  · rfl
  · intro run e _ hrun
    unfold vendorStep
    simp only
    split
    · exact hrun
    · split
      · exact hrun
      · split
        · exact hrun
        · rename_i hst
          exact replayFresh_append F _ _ s _ hrun (by simpa using hst)

/-- C7: on a file system where a copy makes its destination exist and removes nothing,
a second run of the loop of `vendor` over the same packages (visited in any order), on
the state the first run left, copies nothing, prints nothing and leaves the state as it
is; and in both runs every copy was made to a destination that did not exist when it was
made. -/
theorem vendor_second_run_idle {σ : Type} (F : FileSystem σ) (w : workspace)
    (pkgs pkgs' : List (Str × Str)) (s0 : σ)
    (hmk : ∀ s src dst, F.stat (F.copyDir src dst s) dst = true)
    (hkeep : ∀ s src dst p, F.stat s p = true → F.stat (F.copyDir src dst s) p = true)
    (hsame : List.Perm pkgs' pkgs) :
    (vendorLoop F w (vendorLoop F w s0 pkgs).fs pkgs').copied = [] ∧
    (vendorLoop F w (vendorLoop F w s0 pkgs).fs pkgs').printed = [] ∧
    (vendorLoop F w (vendorLoop F w s0 pkgs).fs pkgs').fs = (vendorLoop F w s0 pkgs).fs ∧
    replayFresh F s0 (vendorLoop F w s0 pkgs).copied = some (vendorLoop F w s0 pkgs).fs ∧
    replayFresh F (vendorLoop F w s0 pkgs).fs
      (vendorLoop F w (vendorLoop F w s0 pkgs).fs pkgs').copied =
      some (vendorLoop F w (vendorLoop F w s0 pkgs).fs pkgs').fs := by
  have hfix : vendorLoop F w (vendorLoop F w s0 pkgs).fs pkgs' =
      { fs := (vendorLoop F w s0 pkgs).fs, printed := [], copied := [] } := by
    conv => lhs; unfold vendorLoop
    apply foldl_fixed
    intro e he
    apply vendorStep_fixed
    have := vendorLoop_settles F hmk hkeep w pkgs
      { fs := s0, printed := [], copied := [] } e (Or.inl (hsame.subset he))
    exact this
  refine ⟨by rw [hfix], by rw [hfix], by rw [hfix], vendorLoop_replay F w s0 pkgs,
    vendorLoop_replay F w _ pkgs'⟩

/-- Witness for C7: the promote scenario of the specification on the file system of
existing paths; the first run copies `example.com/dep` to `go/src/example.com/dep` and
prints it, the second run, visiting the packages in reverse order, does nothing. -/
theorem vendor_second_run_idle_witness :
    (vendorLoop pathSetFS scenarioWorkspace [] 
      [("example.com/app".toList, "/ws/go/src/example.com/app".toList),
       ("example.com/dep".toList, "/home/user/gocode/src/example.com/dep".toList)]).printed =
      ["example.com/dep".toList] ∧
    (vendorLoop pathSetFS scenarioWorkspace [] 
      [("example.com/app".toList, "/ws/go/src/example.com/app".toList),
       ("example.com/dep".toList, "/home/user/gocode/src/example.com/dep".toList)]).fs =
      ["go/src/example.com/dep".toList] ∧
    (vendorLoop pathSetFS scenarioWorkspace
      (vendorLoop pathSetFS scenarioWorkspace [] 
        [("example.com/app".toList, "/ws/go/src/example.com/app".toList),
         ("example.com/dep".toList, "/home/user/gocode/src/example.com/dep".toList)]).fs
      [("example.com/dep".toList, "/home/user/gocode/src/example.com/dep".toList),
       ("example.com/app".toList, "/ws/go/src/example.com/app".toList)]).printed = [] :=
  ⟨by decide, by decide,
   (vendor_second_run_idle pathSetFS scenarioWorkspace
      [("example.com/app".toList, "/ws/go/src/example.com/app".toList),
       ("example.com/dep".toList, "/home/user/gocode/src/example.com/dep".toList)]
      [("example.com/dep".toList, "/home/user/gocode/src/example.com/dep".toList),
       ("example.com/app".toList, "/ws/go/src/example.com/app".toList)]
      []
      (fun s src dst => by simp [pathSetFS])
      (fun s src dst p h => by
        simp only [pathSetFS, decide_eq_true_eq] at h ⊢
        exact List.mem_cons_of_mem _ h)
      (List.Perm.swap _ _ _)).2.1⟩
end Wgo
